import Mathlib

/-!
Shallow embedding of the zzz-fetcher character pipeline (`src/index.ts` plus
the two earlier script variants).  JavaScript values are modelled by the
`Json` type below: JS objects become insertion-ordered association lists,
JS numbers become rationals, and property assignment `o[k] = v` becomes
`insertJs`, which overwrites an existing key in place and otherwise appends.
Case conversion (`toUpperCase` / `toLowerCase`) is modelled on the ASCII
fragment, which covers all data the pipeline's regexes distinguish.
-/

/-- Character matched by the class `a-zA-Z0-9` of the source regexes. -/
def isAsciiAlnum (c : Char) : Bool :=
  (97 ≤ c.toNat && c.toNat ≤ 122) || (65 ≤ c.toNat && c.toNat ≤ 90) ||
    (48 ≤ c.toNat && c.toNat ≤ 57)

/-- Character matched by the class `a-z0-9` of the slugify regex. -/
def isLowerAlnum (c : Char) : Bool :=
  (97 ≤ c.toNat && c.toNat ≤ 122) || (48 ≤ c.toNat && c.toNat ≤ 57)

/-- JavaScript line terminators, the characters `.` does not match. -/
def isLineTermJs (c : Char) : Bool :=
  c == '\n' || c == '\r' || c == ' ' || c == ' '

/-- Characters matched by the JS whitespace class `\s` and by `trim`. -/
def isJsWs (c : Char) : Bool :=
  c == ' ' || c == '\t' || c == '\n' || c == '\u000b' || c == '\u000c' ||
    c == '\r' || c == ' ' || c == ' ' ||
    (8192 ≤ c.toNat && c.toNat ≤ 8202) ||
    c == ' ' || c == ' ' || c == ' ' || c == ' ' ||
    c == '　' || c == '﻿'

/-- ASCII fragment of JS `toUpperCase` on one character. -/
def upChar (c : Char) : Char :=
  if 97 ≤ c.toNat && c.toNat ≤ 122 then Char.ofNat (c.toNat - 32) else c

/-- ASCII fragment of JS `toLowerCase` on one character. -/
def downChar (c : Char) : Char :=
  if 65 ≤ c.toNat && c.toNat ≤ 90 then Char.ofNat (c.toNat + 32) else c

/--
End-of-string case of the regex `[^a-zA-Z0-9]+(.)` from `toLowerCamelCase`:
the non-alphanumeric run `c :: cs` reaches the end of the string, so the
engine backtracks until the captured character is not a line terminator.  If
every candidate capture is a line terminator (or the run has length one) the
run is left unmatched; otherwise the whole prefix of the run up to and
including the capture is replaced by the upper-cased capture, and the
remaining line terminators are emitted unchanged.
-/
def camelEnd (c : Char) (cs : List Char) : List Char :=
  match cs.reverse.dropWhile isLineTermJs with
  | [] => c :: cs
  | d :: _ => upChar d :: (cs.reverse.takeWhile isLineTermJs).reverse

/--
Scanner for the global regex replacement
`key.replace(/[^a-zA-Z0-9]+(.)/g, (_, chr) => chr.toUpperCase())`
of `toLowerCamelCase` (src/index.ts line 57), written as a one-pass state
machine.  The state `none` means no match is in progress; the state
`some (c0, acc)` means the scanner stands inside a non-alphanumeric run
that started at `c0` and has since collected `acc` (in reverse).  An
alphanumeric character ending the run is the regex capture, so the whole
match is replaced by the upper-cased capture; when the string ends inside
a run, the backtracking case `camelEnd` decides the leftover.
-/
def camelAux : Option (Char × List Char) → List Char → List Char
  | none, [] => []
  | none, c :: rest =>
    if isAsciiAlnum c then c :: camelAux none rest
    else camelAux (some (c, [])) rest
  | some (c0, acc), [] => camelEnd c0 acc.reverse
  | some (c0, acc), d :: rest =>
    if isAsciiAlnum d then upChar d :: camelAux none rest
    else camelAux (some (c0, d :: acc)) rest

/-- Action of the first regex replacement of `toLowerCamelCase` on a whole
character list. -/
def camelRun (l : List Char) : List Char :=
  camelAux none l

/-- Replacement `replace(/^[A-Z]/, (chr) => chr.toLowerCase())` of
`toLowerCamelCase` (src/index.ts line 58). -/
def lowerFirst : List Char → List Char
  | [] => []
  | c :: rest => (if 65 ≤ c.toNat && c.toNat ≤ 90 then downChar c else c) :: rest

/-- Lower-camel-case key rewriting, `toLowerCamelCase` (src/index.ts 55-59). -/
def toLowerCamelCase (key : String) : String :=
  ⟨lowerFirst (camelRun key.data)⟩

/-- Test used by `stripHtmlTags` on a tag body:
`content.startsWith("IconMap:")`. -/
def isIconMapContent (cs : List Char) : Bool :=
  "IconMap:".data.isPrefixOf cs

/--
Scanner for the global regex replacement of `stripHtmlTags`
(src/index.ts 61-63), which deletes every match of `<([^>]+)>` unless the
captured content starts with `IconMap:`, in which case the tag is emitted
verbatim.  One-pass state machine: `none` means no candidate tag is open;
`some acc` means a `<` has been consumed and `acc` holds the following
non-`>` characters (in reverse).  A `>` with a non-empty content closes a
match; a `>` right after the `<` means the regex cannot match there (the
content class needs at least one character), so both characters pass
through; if the string ends with a candidate open, no `>` ever follows and
everything after the `<` passes through verbatim.
-/
def stripAux : Option (List Char) → List Char → List Char
  | none, [] => []
  | none, c :: rest =>
    if c == '<' then stripAux (some []) rest else c :: stripAux none rest
  | some acc, [] => '<' :: acc.reverse
  | some acc, c :: rest =>
    if c == '>' then
      match acc.reverse with
      | [] => '<' :: '>' :: stripAux none rest
      | cc :: ccs =>
        (if isIconMapContent (cc :: ccs) then '<' :: (cc :: ccs) ++ ['>'] else [])
          ++ stripAux none rest
    else stripAux (some (c :: acc)) rest

/-- Action of the tag-deleting regex replacement on a character list. -/
def stripRun (l : List Char) : List Char :=
  stripAux none l

/-- HTML-tag stripper `stripHtmlTags` (src/index.ts 61-63). -/
def stripHtmlTags (value : String) : String :=
  ⟨stripRun value.data⟩

/-- JS `String.prototype.trim`. -/
def trimJs (l : List Char) : List Char :=
  ((l.dropWhile isJsWs).reverse.dropWhile isJsWs).reverse

/--
Scanner for `replace(/[^a-z0-9]+/g, "-")` of `slugify`: every maximal run
of non-(lower-alphanumeric) characters becomes a single hyphen.  The
Boolean state records whether the scanner already stands inside such a
run, so only the first character of a run emits the hyphen.
-/
def hyphenAux : Bool → List Char → List Char
  | _, [] => []
  | inRun, c :: rest =>
    if isLowerAlnum c then c :: hyphenAux false rest
    else if inRun then hyphenAux true rest
    else '-' :: hyphenAux true rest

/-- Action of the hyphen-collapsing replacement on a character list. -/
def hyphenRuns (l : List Char) : List Char :=
  hyphenAux false l

/-- Replacement `replace(/(^-+|-+$)/g, "")` of `slugify`: leading and
trailing hyphen runs are removed. -/
def stripEdgeHyphens (l : List Char) : List Char :=
  ((l.dropWhile (fun c => c == '-')).reverse.dropWhile (fun c => c == '-')).reverse

/-- Slugifier `slugify` of src/index.ts 194-201: trim, lower-case, delete
all whitespace, replace non-alphanumeric runs by one hyphen, strip edge
hyphens. -/
def slugify (name : String) : String :=
  ⟨stripEdgeHyphens (hyphenRuns
    (((trimJs name.data).map downChar).filter (fun c => ! isJsWs c)))⟩

/-- JS `hay.includes(sub)` on lists of characters. -/
def listContains (hay sub : List Char) : Bool :=
  match hay with
  | [] => sub.isEmpty
  | _ :: rest => sub.isPrefixOf hay || listContains rest sub

/-- JS `hay.includes(sub)` on strings. -/
def containsSub (hay sub : String) : Bool :=
  listContains hay.data sub.data

/-- ASCII fragment of JS `toLowerCase` on a whole string. -/
def toLowerStr (s : String) : String :=
  ⟨s.data.map downChar⟩

/-- Test `key.endsWith("Growth")` used by the level projector. -/
def endsWithGrowth (key : String) : Bool :=
  "Growth".data.isSuffixOf key.data

/-- JSON values as manipulated by the pipeline.  Objects keep their fields
in insertion order, matching `Object.entries` iteration in the source. -/
inductive Json where
  | null : Json
  | bool (b : Bool) : Json
  | num (q : Rat) : Json
  | str (s : String) : Json
  | arr (elems : List Json) : Json
  | obj (fields : List (String × Json)) : Json

/-- Field list of a JS object, in insertion order. -/
abbrev Fields := List (String × Json)

/-- JS property read `o[k]`: the value at the first matching key. -/
def lookupJs : Fields → String → Option Json
  | [], _ => none
  | (k', v) :: fs, k => if k' = k then some v else lookupJs fs k

/-- JS property assignment `o[k] = v`: overwrite the existing key in place,
otherwise append the new field at the end. -/
def insertJs : Fields → String → Json → Fields
  | [], k, v => [(k, v)]
  | (k', v') :: fs, k, v =>
    if k' = k then (k, v) :: fs else (k', v') :: insertJs fs k v

/-- Rebuild an object by assigning each listed field in order into a fresh
object, as the loops of `normalizeKeys` and `convertParamStat` do. -/
def insertAll (l : Fields) : Fields :=
  l.foldl (fun acc kv => insertJs acc kv.1 kv.2) []

/-- Well-formedness of a JS object: its keys are pairwise distinct. -/
def keysNodup (fs : Fields) : Prop :=
  (fs.map Prod.fst).Nodup

/-- Test `typeof v === "number"`. -/
def isNumJson : Json → Bool
  | .num _ => true
  | _ => false

/-- Test `v && typeof v === "object"`: a truthy value of object type, that
is an array or a (non-null) object. -/
def jsTruthyObject : Json → Bool
  | .arr _ => true
  | .obj _ => true
  | _ => false

mutual

/-- Recursive key normalizer `normalizeKeys` (src/index.ts 65-80): string
leaves pass through the HTML-tag stripper, arrays are mapped element-wise,
objects are rebuilt with lower-camel-cased keys, everything else passes
through unchanged. -/
def normalizeKeys : Json → Json
  | .str s => .str (stripHtmlTags s)
  | .arr xs => .arr (normList xs)
  | .obj fs => .obj (insertAll (normFields fs))
  | .null => .null
  | .bool b => .bool b
  | .num q => .num q

/-- Element-wise action of `normalizeKeys` on an array. -/
def normList : List Json → List Json
  | [] => []
  | x :: xs => normalizeKeys x :: normList xs

/-- Field-wise action of `normalizeKeys` on an object's entry list, before
the fields are re-assigned into a fresh object. -/
def normFields : List (String × Json) → List (String × Json)
  | [] => []
  | (k, v) :: fs => (toLowerCamelCase k, normalizeKeys v) :: normFields fs

end

/-- Helper `getString` (src/index.ts 43-46): a string value, or `undefined`
(here `none`) for anything else, including an absent value. -/
def getString : Option Json → Option String
  | some (Json.str s) => some s
  | _ => none

/-- JS nullish coalescing `a ?? b` on possibly-absent property reads. -/
def coalesceJs : Option Json → Option Json → Option Json
  | none, b => b
  | some Json.null, b => b
  | some v, _ => some v

/-- Predicate `shouldNormalizeAsPercent` (src/index.ts 82-89). -/
def shouldNormalizeAsPercent (key : String) (format : Option Json) : Bool :=
  let normalizedKey := toLowerStr key
  let formatString := match format with
    | some (Json.str s) => s
    | _ => ""
  if normalizedKey == "main" && containsSub formatString "%" then true
  else containsSub normalizedKey "percentage" || containsSub normalizedKey "ratio"

/-- Growth lookup of `buildLevelValues` lines 100-101: the numeric value of
the sibling field named `key + "Growth"`, defaulting to zero. -/
def growthOf (stat : Fields) (key : String) : Rat :=
  match lookupJs stat (key ++ "Growth") with
  | some (Json.num g) => g
  | _ => 0

/-- Milestone skill levels, `TARGET_SKILL_LEVELS` (src/index.ts line 8). -/
def TARGET_SKILL_LEVELS : List Nat := [12, 16]

/-- Per-entry step of the inner loop of `buildLevelValues` (96-104): a
numeric, non-growth-suffixed field is projected linearly and then divided
by 100 when the percent rule applies; all other fields are skipped. -/
def levelProj (stat : Fields) (lv : Nat) (kv : String × Json) : Option Json :=
  match kv.2 with
  | Json.num b =>
    if endsWithGrowth kv.1 then none
    else
      let raw := b + ((lv : Rat) - 1) * growthOf stat kv.1
      some (Json.num
        (if shouldNormalizeAsPercent kv.1 (lookupJs stat "format") then raw / 100 else raw))
  | _ => none

/-- Inner loop of `buildLevelValues` for one milestone level: the object of
projected values for that level. -/
def levelStatValues (stat : Fields) (lv : Nat) : Fields :=
  stat.foldl
    (fun values kv =>
      match levelProj stat lv kv with
      | some v => insertJs values kv.1 v
      | none => values)
    []

/-- Level projector `buildLevelValues` (src/index.ts 91-110): one entry per
milestone level with at least one projected value, keyed by the decimal
level number. -/
def buildLevelValues (stat : Fields) : Fields :=
  TARGET_SKILL_LEVELS.foldl
    (fun levelValues lv =>
      let values := levelStatValues stat lv
      if values.isEmpty then levelValues
      else insertJs levelValues (Nat.repr lv) (Json.obj values))
    []

/-- Per-entry step of the metadata loop of `convertParamStat` (118-122): a
field is retained when its value is not numeric or its name ends in
`Growth`. -/
def metaProj (kv : String × Json) : Option Json :=
  if ! isNumJson kv.2 || endsWithGrowth kv.1 then some kv.2 else none

/-- Param-stat converter `convertParamStat` (src/index.ts 112-127). -/
def convertParamStat (stat : Fields) : Fields :=
  if (match lookupJs stat "levelValues" with
      | some v => jsTruthyObject v
      | none => false) then stat
  else
    let levelValues := buildLevelValues stat
    let metadata := stat.foldl
      (fun md kv =>
        match metaProj kv with
        | some v => insertJs md kv.1 v
        | none => md)
      []
    if levelValues.isEmpty then metadata
    else insertJs metadata "levelValues" (Json.obj levelValues)

/-- Per-entry step of `simplifyStats` (32-41): keep numeric fields only. -/
def numProj (kv : String × Json) : Option Json :=
  if isNumJson kv.2 then some kv.2 else none

/-- Stat block filter `simplifyStats` (src/index.ts 32-41). -/
def simplifyStats : Option Fields → Option Fields
  | none => none
  | some stats =>
    let simplified := stats.foldl
      (fun acc kv =>
        match numProj kv with
        | some v => insertJs acc kv.1 v
        | none => acc)
      []
    if simplified.isEmpty then none else some simplified

/-- Pre-fetch output namer `getIndexFileName` (src/index.ts 212-217). -/
def getIndexFileName (key : String) (indexEntry : Fields) : String :=
  match getString (coalesceJs (lookupJs indexEntry "CodeName") (lookupJs indexEntry "code")) with
  | none => key
  | some code =>
    if code = "" then key
    else
      let slug := slugify code
      if slug = "" then key else slug

namespace Detail

/-- Slugifier `slugify` of the post-fetch variant (src/unnamed/part_002,
lines 81-88); its body is the same as the one of src/index.ts. -/
def slugify (name : String) : String :=
  ⟨stripEdgeHyphens (hyphenRuns
    (((trimJs name.data).map downChar).filter (fun c => ! isJsWs c)))⟩

/-- Post-fetch output namer `getFileName` (src/unnamed/part_002, 90-95). -/
def getFileName (key : String) (detail : Fields) : String :=
  match getString (lookupJs detail "CodeName") with
  | none => key
  | some codeName =>
    if codeName = "" then key
    else
      let slug := Detail.slugify codeName
      if slug = "" then key else slug

end Detail


/--
Shape of the output of the tag-stripping scanner: every `<` in such a
string either opens a kept `IconMap:` tag, is immediately followed by `>`
(so the tag regex cannot match there), or is never followed by a `>` again.
Strings of this shape are exactly the fixed points of the scanner.
-/
inductive Stripped : List Char → Prop where
  | nil : Stripped []
  | chr {c : Char} {l : List Char} : c ≠ '<' → Stripped l → Stripped (c :: l)
  | ltGt {l : List Char} : Stripped l → Stripped ('<' :: '>' :: l)
  | tag {content l : List Char} : content ≠ [] → (∀ x ∈ content, x ≠ '>') →
      isIconMapContent content = true → Stripped l →
      Stripped ('<' :: content ++ '>' :: l)
  | ltTail {l : List Char} : (∀ x ∈ l, x ≠ '>') → Stripped ('<' :: l)

/--
Shape of the output of the camel-case scanner: alphanumeric characters
followed by at most one leftover non-alphanumeric character and trailing
line terminators (the only material the regex leaves unmatched).  Strings
of this shape are fixed points of the scanner.
-/
inductive CamelOut : List Char → Prop where
  | nil : CamelOut []
  | alnum {c : Char} {l : List Char} : isAsciiAlnum c = true → CamelOut l →
      CamelOut (c :: l)
  | junk {c : Char} {ls : List Char} : isAsciiAlnum c = false →
      (∀ x ∈ ls, isLineTermJs x = true) → CamelOut (c :: ls)

/-! Lemmas about the association-list model of JS objects. -/

theorem lookupJs_insertJs_self (fs : Fields) (k : String) (v : Json) :
    lookupJs (insertJs fs k v) k = some v := by
  induction fs with
  | nil => simp [insertJs, lookupJs]
  | cons kv fs ih =>
    obtain ⟨k', v'⟩ := kv
    by_cases h : k' = k
    · subst h
      simp [insertJs, lookupJs]
    · simp [insertJs, lookupJs, h, ih]

theorem lookupJs_insertJs_ne (fs : Fields) (k k2 : String) (v : Json) (h : k2 ≠ k) :
    lookupJs (insertJs fs k v) k2 = lookupJs fs k2 := by
  induction fs with
  | nil => simp [insertJs, lookupJs, Ne.symm h]
  | cons kv fs ih =>
    obtain ⟨k', v'⟩ := kv
    by_cases hk : k' = k
    · subst hk
      simp [insertJs, lookupJs, Ne.symm h]
    · by_cases hk2 : k' = k2
      · subst hk2
        simp [insertJs, lookupJs, hk]
      · simp [insertJs, lookupJs, hk, hk2, ih]

theorem insertJs_of_fresh (fs : Fields) (k : String) (v : Json)
    (h : ∀ kv ∈ fs, kv.1 ≠ k) : insertJs fs k v = fs ++ [(k, v)] := by
  induction fs with
  | nil => simp [insertJs]
  | cons kv fs ih =>
    obtain ⟨k', v'⟩ := kv
    have hk : k' ≠ k := h (k', v') (List.mem_cons_self _ _)
    have ih2 := ih (fun kv hkv => h kv (List.mem_cons_of_mem _ hkv))
    simp [insertJs, hk, ih2]

theorem mem_insertJs (fs : Fields) (k : String) (v : Json) (kv : String × Json)
    (h : kv ∈ insertJs fs k v) : kv ∈ fs ∨ kv = (k, v) := by
  induction fs with
  | nil =>
    simp [insertJs] at h
    right
    exact h
  | cons kv0 fs ih =>
    obtain ⟨k', v'⟩ := kv0
    by_cases hk : k' = k
    · subst hk
      simp [insertJs] at h
      rcases h with h | h
      · right; exact h
      · left; exact List.mem_cons_of_mem _ h
    · simp [insertJs, hk] at h
      rcases h with h | h
      · left; simp [h]
      · rcases ih h with h2 | h2
        · left; exact List.mem_cons_of_mem _ h2
        · right; exact h2

theorem mapFst_insertJs (fs : Fields) (k : String) (v : Json) :
    (insertJs fs k v).map Prod.fst
      = if k ∈ fs.map Prod.fst then fs.map Prod.fst else fs.map Prod.fst ++ [k] := by
  induction fs with
  | nil => simp [insertJs]
  | cons kv fs ih =>
    obtain ⟨k', v'⟩ := kv
    by_cases hk : k' = k
    · subst hk
      simp [insertJs]
    · by_cases hmem : k ∈ fs.map Prod.fst
      · simp [insertJs, hk, ih, hmem, Ne.symm hk]
      · simp [insertJs, hk, ih, hmem, Ne.symm hk]

theorem keysNodup_insertJs (fs : Fields) (k : String) (v : Json)
    (h : keysNodup fs) : keysNodup (insertJs fs k v) := by
  unfold keysNodup at h ⊢
  rw [mapFst_insertJs]
  by_cases hmem : k ∈ fs.map Prod.fst
  · simp [hmem, h]
  · simp only [hmem, if_false]
    have hperm := List.perm_append_singleton k (fs.map Prod.fst)
    rw [hperm.nodup_iff, List.nodup_cons]
    exact ⟨hmem, h⟩

theorem lookupJs_eq_none_of_not_mem (l : Fields) (k : String)
    (h : k ∉ l.map Prod.fst) : lookupJs l k = none := by
  induction l with
  | nil => simp [lookupJs]
  | cons a l ih =>
    obtain ⟨k', v'⟩ := a
    have h1 : k' ≠ k := by
      intro hEq
      exact h (by simp [hEq])
    have h2 : k ∉ l.map Prod.fst := by
      intro hk
      exact h (by simp [hk])
    simp [lookupJs, h1, ih h2]

theorem mem_of_lookupJs_some (l : Fields) (k : String) (v : Json)
    (h : lookupJs l k = some v) : (k, v) ∈ l := by
  induction l with
  | nil => simp [lookupJs] at h
  | cons a l ih =>
    obtain ⟨k', v'⟩ := a
    by_cases hk : k' = k
    · subst hk
      simp [lookupJs] at h
      simp [h]
    · simp [lookupJs, hk] at h
      exact List.mem_cons_of_mem _ (ih h)

theorem lookupJs_eq_some_of_mem (l : Fields) (k : String) (v : Json)
    (hnd : keysNodup l) (hmem : (k, v) ∈ l) : lookupJs l k = some v := by
  induction l with
  | nil => simp at hmem
  | cons a l ih =>
    obtain ⟨k', v'⟩ := a
    unfold keysNodup at hnd
    rw [List.map_cons, List.nodup_cons] at hnd
    obtain ⟨hnotin, hndl⟩ := hnd
    rcases List.mem_cons.mp hmem with h | h
    · have hk : k = k' := congrArg Prod.fst h
      have hv : v = v' := congrArg Prod.snd h
      subst hk
      subst hv
      simp [lookupJs]
    · have hk : k' ≠ k := by
        intro hEq
        subst hEq
        exact hnotin (List.mem_map.mpr ⟨(k', v), h, rfl⟩)
      simp [lookupJs, hk]
      exact ih hndl h

theorem foldl_insert_eq_filterMap (f : String × Json → Option Json) :
    ∀ (l acc : Fields), (l.map Prod.fst).Nodup →
      (∀ kv ∈ l, ∀ kv2 ∈ acc, kv.1 ≠ kv2.1) →
      l.foldl
        (fun md kv =>
          match f kv with
          | some v => insertJs md kv.1 v
          | none => md) acc
      = acc ++ l.filterMap (fun kv => (f kv).map (fun v => (kv.1, v))) := by
  intro l
  induction l with
  | nil =>
    intro acc _ _
    simp
  | cons a l ih =>
    intro acc hnd hfresh
    rw [List.map_cons, List.nodup_cons] at hnd
    obtain ⟨hanotin, hndl⟩ := hnd
    simp only [List.foldl_cons, List.filterMap_cons]
    cases hfa : f a with
    | none =>
      simp only [hfa]
      exact ih acc hndl (fun kv hkv kv2 hkv2 => hfresh kv (List.mem_cons_of_mem _ hkv) kv2 hkv2)
    | some w =>
      simp only [hfa]
      rw [insertJs_of_fresh acc a.1 w
        (fun kv2 h2 => Ne.symm (hfresh a (List.mem_cons_self _ _) kv2 h2))]
      have hfr2 : ∀ kv ∈ l, ∀ kv2 ∈ acc ++ [(a.1, w)], kv.1 ≠ kv2.1 := by
        intro kv hkv kv2 hkv2
        rcases List.mem_append.mp hkv2 with h2 | h2
        · exact hfresh kv (List.mem_cons_of_mem _ hkv) kv2 h2
        · have hkv2eq : kv2 = (a.1, w) := by simpa using h2
          subst hkv2eq
          intro hEq
          exact hanotin (hEq ▸ List.mem_map_of_mem Prod.fst hkv)
      rw [ih (acc ++ [(a.1, w)]) hndl hfr2]
      simp

theorem mapFst_filterMap_not_mem (f : String × Json → Option Json) (l : Fields) (k : String)
    (h : k ∉ l.map Prod.fst) :
    k ∉ (l.filterMap (fun kv => (f kv).map (fun w => (kv.1, w)))).map Prod.fst := by
  induction l with
  | nil => simp
  | cons a l ih =>
    have h1 : k ≠ a.1 := by
      intro hEq
      exact h (by simp [hEq])
    have h2 : k ∉ l.map Prod.fst := by
      intro hk
      exact h (by simp [hk])
    simp only [List.filterMap_cons]
    cases hfa : f a with
    | none => exact ih h2
    | some w =>
      intro hk
      simp only [Option.map_some', List.map_cons] at hk
      rcases List.mem_cons.mp hk with h3 | h3
      · exact h1 h3
      · exact ih h2 h3

theorem lookupJs_filterMap (f : String × Json → Option Json) (l : Fields)
    (hnd : (l.map Prod.fst).Nodup) (k : String) (v : Json) (hmem : (k, v) ∈ l) :
    lookupJs (l.filterMap (fun kv => (f kv).map (fun w => (kv.1, w)))) k = f (k, v) := by
  induction l with
  | nil => simp at hmem
  | cons a l ih =>
    rw [List.map_cons, List.nodup_cons] at hnd
    obtain ⟨hnotin, hndl⟩ := hnd
    rcases List.mem_cons.mp hmem with h | h
    · have ha : a = (k, v) := h.symm
      subst ha
      simp only [List.filterMap_cons]
      cases hfa : f (k, v) with
      | none =>
        exact lookupJs_eq_none_of_not_mem _ _ (mapFst_filterMap_not_mem f l k hnotin)
      | some w =>
        simp [lookupJs]
    · have hk : a.1 ≠ k := by
        intro hEq
        rw [hEq] at hnotin
        exact hnotin (List.mem_map_of_mem Prod.fst h)
      simp only [List.filterMap_cons]
      cases hfa : f a with
      | none => exact ih hndl h
      | some w =>
        simp only [Option.map_some']
        simp [lookupJs, hk]
        exact ih hndl h

theorem keysNodup_filter (p : String × Json → Bool) (l : Fields)
    (hnd : keysNodup l) : keysNodup (l.filter p) :=
  ((List.filter_sublist l).map Prod.fst).nodup hnd

theorem lookupJs_filter (p : String × Json → Bool) (l : Fields) (hnd : keysNodup l)
    (k : String) (v : Json) (hmem : (k, v) ∈ l) :
    lookupJs (l.filter p) k = if p (k, v) then some v else none := by
  induction l with
  | nil => simp at hmem
  | cons a l ih =>
    unfold keysNodup at hnd
    rw [List.map_cons, List.nodup_cons] at hnd
    obtain ⟨hnotin, hndl⟩ := hnd
    rcases List.mem_cons.mp hmem with h | h
    · have ha : a = (k, v) := h.symm
      subst ha
      by_cases hp : p (k, v) = true
      · simp [List.filter_cons, hp, lookupJs]
      · have hout : k ∉ (l.filter p).map Prod.fst := by
          intro hk
          rcases List.mem_map.mp hk with ⟨x, hx, hx1⟩
          exact hnotin (List.mem_map.mpr ⟨x, List.mem_of_mem_filter hx, hx1⟩)
        simp [List.filter_cons, hp, lookupJs_eq_none_of_not_mem _ _ hout]
    · have hk : a.1 ≠ k := by
        intro hEq
        apply hnotin
        rw [hEq]
        exact List.mem_map.mpr ⟨(k, v), h, rfl⟩
      by_cases hp : p a = true
      · simp [List.filter_cons, hp, lookupJs, hk, ih hndl h]
      · simp [List.filter_cons, hp, ih hndl h]

theorem levelStatValues_eq (stat : Fields) (lv : Nat) (hnd : keysNodup stat) :
    levelStatValues stat lv
      = stat.filterMap (fun kv => (levelProj stat lv kv).map (fun v => (kv.1, v))) := by
  unfold levelStatValues
  have h := foldl_insert_eq_filterMap (levelProj stat lv) stat [] hnd (by simp)
  simpa using h

theorem filterMap_guard (p : String × Json → Bool) (l : Fields) :
    l.filterMap (fun kv => if p kv then some kv else none) = l.filter p := by
  induction l with
  | nil => simp
  | cons a l ih =>
    by_cases h : p a = true
    · simp [List.filterMap_cons, List.filter_cons, h, ih]
    · simp [List.filterMap_cons, List.filter_cons, h, ih]

theorem filterMap_metaProj (l : Fields) :
    l.filterMap (fun kv => (metaProj kv).map (fun v => (kv.1, v)))
      = l.filter (fun kv => ! isNumJson kv.2 || endsWithGrowth kv.1) := by
  have hm : ∀ kv : String × Json, (metaProj kv).map (fun v => (kv.1, v))
      = if (! isNumJson kv.2 || endsWithGrowth kv.1) then some kv else none := by
    intro kv
    unfold metaProj
    by_cases h : (! isNumJson kv.2 || endsWithGrowth kv.1) = true
    · simp [h]
    · simp [h]
  simp only [hm]
  exact filterMap_guard _ l

theorem filterMap_numProj (l : Fields) :
    l.filterMap (fun kv => (numProj kv).map (fun v => (kv.1, v)))
      = l.filter (fun kv => isNumJson kv.2) := by
  have hm : ∀ kv : String × Json, (numProj kv).map (fun v => (kv.1, v))
      = if isNumJson kv.2 then some kv else none := by
    intro kv
    unfold numProj
    by_cases h : isNumJson kv.2 = true
    · simp [h]
    · simp [h]
  simp only [hm]
  exact filterMap_guard _ l

theorem simplifyStats_eq (stats : Fields) (hnd : keysNodup stats) :
    simplifyStats (some stats)
      = (if (stats.filter (fun kv => isNumJson kv.2)).isEmpty then none
         else some (stats.filter (fun kv => isNumJson kv.2))) := by
  simp only [simplifyStats]
  rw [foldl_insert_eq_filterMap numProj stats [] hnd (by simp)]
  rw [List.nil_append, filterMap_numProj]

theorem buildLevelValues_eq (stat : Fields) :
    buildLevelValues stat
      = TARGET_SKILL_LEVELS.filterMap (fun lv =>
          if (levelStatValues stat lv).isEmpty then none
          else some (Nat.repr lv, Json.obj (levelStatValues stat lv))) := by
  unfold buildLevelValues TARGET_SKILL_LEVELS
  by_cases h12 : (levelStatValues stat 12).isEmpty <;>
    by_cases h16 : (levelStatValues stat 16).isEmpty <;>
      simp +decide [h12, h16, insertJs]

theorem lookupJs_buildLevelValues (stat : Fields) (lv : Nat) (hlv : lv ∈ TARGET_SKILL_LEVELS) :
    lookupJs (buildLevelValues stat) (Nat.repr lv)
      = if (levelStatValues stat lv).isEmpty then none
        else some (Json.obj (levelStatValues stat lv)) := by
  rw [buildLevelValues_eq]
  have hlv2 : lv = 12 ∨ lv = 16 := by simpa [TARGET_SKILL_LEVELS] using hlv
  rcases hlv2 with h | h <;> subst h <;>
    unfold TARGET_SKILL_LEVELS <;>
      by_cases h12 : (levelStatValues stat 12).isEmpty <;>
        by_cases h16 : (levelStatValues stat 16).isEmpty <;>
          simp +decide [h12, h16, lookupJs]

/-- Claim C9: for every well-formed stat mapping, every numeric entry is
kept with an identical value by `simplifyStats`, every non-numeric entry is
absent from the output, and when no entry is numeric the result is the
absent value `none` rather than an empty mapping. -/
theorem claim9_simplifyStats (stats : Fields) (hnd : keysNodup stats) :
    (∀ k v, (k, v) ∈ stats → isNumJson v = true →
      ∃ out, simplifyStats (some stats) = some out ∧ lookupJs out k = some v)
    ∧ (∀ k v out, (k, v) ∈ stats → isNumJson v = false →
        simplifyStats (some stats) = some out → lookupJs out k = none)
    ∧ ((∀ kv ∈ stats, isNumJson kv.2 = false) → simplifyStats (some stats) = none) := by
  refine ⟨?_, ?_, ?_⟩
  · intro k v hmem hnum
    have hin : (k, v) ∈ stats.filter (fun kv => isNumJson kv.2) :=
      List.mem_filter.mpr ⟨hmem, hnum⟩
    have hne : ¬ (stats.filter (fun kv => isNumJson kv.2)).isEmpty = true := by
      intro hempty
      rw [List.isEmpty_iff] at hempty
      rw [hempty] at hin
      simp at hin
    refine ⟨stats.filter (fun kv => isNumJson kv.2), ?_, ?_⟩
    · rw [simplifyStats_eq stats hnd, if_neg hne]
    · have h := lookupJs_filter (fun kv => isNumJson kv.2) stats hnd k v hmem
      simpa [hnum] using h
  · intro k v out hmem hnum hout
    rw [simplifyStats_eq stats hnd] at hout
    by_cases hempty : (stats.filter (fun kv => isNumJson kv.2)).isEmpty = true
    · rw [if_pos hempty] at hout
      exact Option.noConfusion hout
    · rw [if_neg hempty] at hout
      obtain rfl : stats.filter (fun kv => isNumJson kv.2) = out := Option.some.inj hout
      have h := lookupJs_filter (fun kv => isNumJson kv.2) stats hnd k v hmem
      simpa [hnum] using h
  · intro hall
    rw [simplifyStats_eq stats hnd]
    have hnil : stats.filter (fun kv => isNumJson kv.2) = [] := by
      rw [List.filter_eq_nil_iff]
      intro kv hkv
      simp [hall kv hkv]
    simp [hnil]

/-- Witness for C9 at concrete stat blocks. -/
theorem claim9_witness :
    (∃ out, simplifyStats (some [("HP", Json.num 100), ("Note", Json.str "x")]) = some out ∧
        lookupJs out "HP" = some (Json.num 100))
    ∧ (∀ out, simplifyStats (some [("HP", Json.num 100), ("Note", Json.str "x")]) = some out →
        lookupJs out "Note" = none)
    ∧ simplifyStats (some [("Note1", Json.str "x")]) = none := by
  refine ⟨?_, ?_, ?_⟩
  · exact (claim9_simplifyStats _ (by unfold keysNodup; decide)).1 "HP" (Json.num 100)
      (List.mem_cons_self _ _) rfl
  · intro out hout
    exact (claim9_simplifyStats _ (by unfold keysNodup; decide)).2.1 "Note" (Json.str "x") out
      (by simp) rfl hout
  · refine (claim9_simplifyStats _ (by unfold keysNodup; decide)).2.2 ?_
    intro kv hkv
    simp at hkv
    rw [hkv]
    rfl

/-- Claim C4 (amended): a param-stat block whose `levelValues` field holds
a truthy value of object type (a JSON object or array) is returned
unmodified by `convertParamStat`.  The frozen claim asserts this for every
block that merely contains the key `levelValues`; the counterexample shows
a block with a numeric `levelValues` value is rebuilt instead. -/
theorem claim4_convert_idem (stat : Fields) (v : Json)
    (hlk : lookupJs stat "levelValues" = some v) (hv : jsTruthyObject v = true) :
    convertParamStat stat = stat := by
  simp [convertParamStat, hlk, hv]

/-- Witness for C4 at a block already carrying a per-level table. -/
theorem claim4_witness :
    convertParamStat [("levelValues", Json.obj []), ("a", Json.num 1)]
      = [("levelValues", Json.obj []), ("a", Json.num 1)] :=
  claim4_convert_idem _ (Json.obj []) rfl rfl

/-- Counterexample for C4 as frozen: this block contains the key
`levelValues` (with a numeric value), yet the converter rebuilds the block
instead of returning it unchanged. -/
theorem claim4_counterexample :
    convertParamStat [("levelValues", Json.num 5)] ≠ [("levelValues", Json.num 5)] := by
  intro h
  have h2 := congrArg
    (fun fs => jsTruthyObject ((lookupJs fs "levelValues").getD Json.null)) h
  have h3 : true = false := h2
  exact Bool.noConfusion h3

/-- Claim C1 (amended): for every well-formed stat block, every milestone
level in `TARGET_SKILL_LEVELS` and every numeric field whose name is not
growth-suffixed, the table built by `buildLevelValues` maps the decimal
level string to an object whose value for the field is
`base + (level - 1) * growth` — growth read from the numeric sibling field
named `<name>Growth`, zero otherwise — divided by 100 exactly when the
percent-normalization rule applies; a milestone level with no projected
values is omitted, and no other keys appear in the table.  (The frozen
claim omits the percent division; see the counterexample.) -/
theorem claim1_buildLevelValues (stat : Fields) (hnd : keysNodup stat) :
    (∀ lv, lv ∈ TARGET_SKILL_LEVELS → ∀ k b, (k, Json.num b) ∈ stat →
      endsWithGrowth k = false →
      ∃ vals, lookupJs (buildLevelValues stat) (Nat.repr lv) = some (Json.obj vals) ∧
        lookupJs vals k = some (Json.num
          (if shouldNormalizeAsPercent k (lookupJs stat "format")
           then (b + ((lv : Rat) - 1) * growthOf stat k) / 100
           else b + ((lv : Rat) - 1) * growthOf stat k)))
    ∧ (∀ lv, lv ∈ TARGET_SKILL_LEVELS → levelStatValues stat lv = [] →
        lookupJs (buildLevelValues stat) (Nat.repr lv) = none)
    ∧ (∀ e, e ∈ buildLevelValues stat → e.1 = Nat.repr 12 ∨ e.1 = Nat.repr 16) := by
  refine ⟨?_, ?_, ?_⟩
  · intro lv hlv k b hmem hgrowth
    have hlook : lookupJs (levelStatValues stat lv) k
        = some (Json.num (if shouldNormalizeAsPercent k (lookupJs stat "format")
            then (b + ((lv : Rat) - 1) * growthOf stat k) / 100
            else b + ((lv : Rat) - 1) * growthOf stat k)) := by
      rw [levelStatValues_eq stat lv hnd]
      rw [lookupJs_filterMap (levelProj stat lv) stat hnd k (Json.num b) hmem]
      simp [levelProj, hgrowth]
    have hne : ¬ (levelStatValues stat lv).isEmpty = true := by
      intro hempty
      rw [List.isEmpty_iff] at hempty
      rw [hempty] at hlook
      simp [lookupJs] at hlook
    refine ⟨levelStatValues stat lv, ?_, hlook⟩
    rw [lookupJs_buildLevelValues stat lv hlv, if_neg hne]
  · intro lv hlv hnil
    rw [lookupJs_buildLevelValues stat lv hlv]
    rw [if_pos (by simp [hnil])]
  · intro e he
    rw [buildLevelValues_eq] at he
    obtain ⟨lv, hlv, hf⟩ := List.mem_filterMap.mp he
    have hlv2 : lv = 12 ∨ lv = 16 := by simpa [TARGET_SKILL_LEVELS] using hlv
    by_cases hem : (levelStatValues stat lv).isEmpty = true
    · rw [if_pos hem] at hf
      exact Option.noConfusion hf
    · rw [if_neg hem] at hf
      have he2 : e = (Nat.repr lv, Json.obj (levelStatValues stat lv)) :=
        (Option.some.inj hf).symm
      rcases hlv2 with h | h
      · left
        rw [he2, h]
      · right
        rw [he2, h]

/-- Witness for C1 (amended) at a concrete stat block. -/
theorem claim1_witness :
    ∃ vals,
      lookupJs (buildLevelValues [("hp", Json.num 100), ("hpGrowth", Json.num 10)]) (Nat.repr 12)
        = some (Json.obj vals) ∧
      lookupJs vals "hp" = some (Json.num
        (if shouldNormalizeAsPercent "hp"
              (lookupJs [("hp", Json.num 100), ("hpGrowth", Json.num 10)] "format")
         then (100 + ((12 : Rat) - 1) * growthOf [("hp", Json.num 100), ("hpGrowth", Json.num 10)] "hp") / 100
         else 100 + ((12 : Rat) - 1) * growthOf [("hp", Json.num 100), ("hpGrowth", Json.num 10)] "hp")) :=
  (claim1_buildLevelValues _ (by unfold keysNodup; decide)).1 12
    (by unfold TARGET_SKILL_LEVELS; decide) "hp" 100 (List.mem_cons_self _ _) rfl

/-- Counterexample for C1 as frozen: with stat name `hpPercentage`, base
100 and growth 10, the stored level-12 value is 21/10 (2.1), not the bare
linear value 210 the frozen claim asserts for every numeric non-growth
field. -/
theorem claim1_counterexample :
    lookupJs (buildLevelValues
        [("hpPercentage", Json.num 100), ("hpPercentageGrowth", Json.num 10)]) "12"
      = some (Json.obj [("hpPercentage", Json.num (21/10))])
    ∧ ((21 : Rat)/10) ≠ 210 := by
  constructor
  · simp +decide [buildLevelValues, TARGET_SKILL_LEVELS, levelStatValues, levelProj,
      growthOf, lookupJs, insertJs, endsWithGrowth, shouldNormalizeAsPercent,
      toLowerStr, containsSub, listContains, downChar, isNumJson]
    norm_num
  · norm_num

/-- Claim C6: a projected stat value is divided by 100 before storage
exactly when the format hint is a string containing "%" and the
lower-cased stat name equals "main", or the lower-cased name contains
"percentage" or "ratio"; in particular for base 100, growth 10 and stat
name `hpPercentage`, the stored values at levels 12 and 16 are 2.10 and
2.50 (21/10 and 5/2). -/
theorem claim6_percentRule (stat : Fields) (hnd : keysNodup stat) :
    (∀ lv k b, (k, Json.num b) ∈ stat → endsWithGrowth k = false →
      lookupJs (levelStatValues stat lv) k = some (Json.num
        (if (toLowerStr k == "main"
              && containsSub (match lookupJs stat "format" with
                  | some (Json.str s) => s
                  | _ => "") "%")
            || containsSub (toLowerStr k) "percentage"
            || containsSub (toLowerStr k) "ratio"
         then (b + ((lv : Rat) - 1) * growthOf stat k) / 100
         else b + ((lv : Rat) - 1) * growthOf stat k)))
    ∧ lookupJs (levelStatValues
        [("hpPercentage", Json.num 100), ("hpPercentageGrowth", Json.num 10)] 12)
        "hpPercentage" = some (Json.num (21/10))
    ∧ lookupJs (levelStatValues
        [("hpPercentage", Json.num 100), ("hpPercentageGrowth", Json.num 10)] 16)
        "hpPercentage" = some (Json.num (5/2)) := by
  have hs : ∀ (k : String) (fmt : Option Json), shouldNormalizeAsPercent k fmt
      = ((toLowerStr k == "main"
            && containsSub (match fmt with
                | some (Json.str s) => s
                | _ => "") "%")
          || containsSub (toLowerStr k) "percentage"
          || containsSub (toLowerStr k) "ratio") := by
    intro k fmt
    unfold shouldNormalizeAsPercent
    by_cases h : (toLowerStr k == "main"
        && containsSub (match fmt with
            | some (Json.str s) => s
            | _ => "") "%") = true
    · simp [h]
    · simp [h]
  refine ⟨?_, ?_, ?_⟩
  · intro lv k b hmem hgrowth
    rw [levelStatValues_eq stat lv hnd]
    rw [lookupJs_filterMap (levelProj stat lv) stat hnd k (Json.num b) hmem]
    simp only [levelProj, hgrowth, hs]
    simp
  · simp +decide [levelStatValues, levelProj, growthOf, lookupJs, insertJs,
      endsWithGrowth, shouldNormalizeAsPercent, toLowerStr, containsSub,
      listContains, downChar, isNumJson]
    norm_num
  · simp +decide [levelStatValues, levelProj, growthOf, lookupJs, insertJs,
      endsWithGrowth, shouldNormalizeAsPercent, toLowerStr, containsSub,
      listContains, downChar, isNumJson]
    norm_num

/-- Witness for C6 at a concrete non-percent stat block. -/
theorem claim6_witness :
    lookupJs (levelStatValues [("hp", Json.num 100), ("hpGrowth", Json.num 10)] 12) "hp"
      = some (Json.num
        (if (toLowerStr "hp" == "main"
              && containsSub (match lookupJs [("hp", Json.num 100), ("hpGrowth", Json.num 10)] "format" with
                  | some (Json.str s) => s
                  | _ => "") "%")
            || containsSub (toLowerStr "hp") "percentage"
            || containsSub (toLowerStr "hp") "ratio"
         then (100 + ((12 : Rat) - 1) * growthOf [("hp", Json.num 100), ("hpGrowth", Json.num 10)] "hp") / 100
         else 100 + ((12 : Rat) - 1) * growthOf [("hp", Json.num 100), ("hpGrowth", Json.num 10)] "hp")) :=
  (claim6_percentRule _ (by unfold keysNodup; decide)).1 12 "hp" 100
    (List.mem_cons_self _ _) rfl

/-- Claim C2 (amended): for a well-formed param-stat block that does not
already carry a per-level table, the converted block retains exactly the
input fields whose values are non-numeric or whose names end in `Growth`
(so numeric growth fields are kept), plus — when non-empty — the computed
per-level table under the key `levelValues`, which overwrites a retained
field of that name; numeric fields that are not growth-suffixed are
absent.  (The frozen claim asserts growth-suffixed numeric fields are
dropped; see the counterexample.) -/
theorem claim2_convertParamStat (stat : Fields) (hnd : keysNodup stat)
    (hguard : (match lookupJs stat "levelValues" with
        | some v => jsTruthyObject v
        | none => false) = false) :
    (∀ k v, (k, v) ∈ stat → (isNumJson v = false ∨ endsWithGrowth k = true) →
      k ≠ "levelValues" → lookupJs (convertParamStat stat) k = some v)
    ∧ (∀ k b, (k, Json.num b) ∈ stat → endsWithGrowth k = false →
        k ≠ "levelValues" → lookupJs (convertParamStat stat) k = none)
    ∧ (buildLevelValues stat ≠ [] →
        lookupJs (convertParamStat stat) "levelValues"
          = some (Json.obj (buildLevelValues stat)))
    ∧ (buildLevelValues stat = [] →
        convertParamStat stat
          = stat.filter (fun kv => ! isNumJson kv.2 || endsWithGrowth kv.1))
    ∧ (∀ e, e ∈ convertParamStat stat → e ∈ stat ∨ e.1 = "levelValues") := by
  have hmd : stat.foldl
      (fun md kv =>
        match metaProj kv with
        | some v => insertJs md kv.1 v
        | none => md) []
      = stat.filter (fun kv => ! isNumJson kv.2 || endsWithGrowth kv.1) := by
    rw [foldl_insert_eq_filterMap metaProj stat [] hnd (by simp), List.nil_append,
      filterMap_metaProj]
  have hconv : convertParamStat stat
      = (if (buildLevelValues stat).isEmpty
         then stat.filter (fun kv => ! isNumJson kv.2 || endsWithGrowth kv.1)
         else insertJs (stat.filter (fun kv => ! isNumJson kv.2 || endsWithGrowth kv.1))
            "levelValues" (Json.obj (buildLevelValues stat))) := by
    simp only [convertParamStat, hguard, hmd]
    simp
  refine ⟨?_, ?_, ?_, ?_, ?_⟩
  · intro k v hmem hkeep hne
    have hpred : (! isNumJson v || endsWithGrowth k) = true := by
      rcases hkeep with h | h <;> simp [h]
    have hl := lookupJs_filter (fun kv => ! isNumJson kv.2 || endsWithGrowth kv.1)
      stat hnd k v hmem
    rw [hconv]
    by_cases hbe : (buildLevelValues stat).isEmpty = true
    · rw [if_pos hbe, hl]
      simp [hpred]
    · rw [if_neg hbe, lookupJs_insertJs_ne _ _ _ _ hne, hl]
      simp [hpred]
  · intro k b hmem hg hne
    have hpred : (! isNumJson (Json.num b) || endsWithGrowth k) = false := by
      simp [isNumJson, hg]
    have hl := lookupJs_filter (fun kv => ! isNumJson kv.2 || endsWithGrowth kv.1)
      stat hnd k (Json.num b) hmem
    rw [hconv]
    by_cases hbe : (buildLevelValues stat).isEmpty = true
    · rw [if_pos hbe, hl]
      simp [hpred]
    · rw [if_neg hbe, lookupJs_insertJs_ne _ _ _ _ hne, hl]
      simp [hpred]
  · intro hne0
    have hbe : ¬ (buildLevelValues stat).isEmpty = true := by
      simpa [List.isEmpty_iff] using hne0
    rw [hconv, if_neg hbe, lookupJs_insertJs_self]
  · intro h0
    rw [hconv, if_pos (by simp [h0])]
  · intro e he
    rw [hconv] at he
    by_cases hbe : (buildLevelValues stat).isEmpty = true
    · rw [if_pos hbe] at he
      left
      exact List.mem_of_mem_filter he
    · rw [if_neg hbe] at he
      rcases mem_insertJs _ _ _ _ he with h | h
      · left
        exact List.mem_of_mem_filter h
      · right
        rw [h]

/-- Witness for C2 (amended) at a concrete stat block. -/
theorem claim2_witness :
    lookupJs (convertParamStat
        [("hp", Json.num 100), ("hpGrowth", Json.num 10), ("desc", Json.str "d")]) "desc"
      = some (Json.str "d")
    ∧ lookupJs (convertParamStat
        [("hp", Json.num 100), ("hpGrowth", Json.num 10), ("desc", Json.str "d")]) "hp"
      = none := by
  constructor
  · exact (claim2_convertParamStat _ (by unfold keysNodup; decide) rfl).1
      "desc" (Json.str "d") (by simp) (Or.inl rfl) (by decide)
  · exact (claim2_convertParamStat _ (by unfold keysNodup; decide) rfl).2.1
      "hp" 100 (List.mem_cons_self _ _) rfl (by decide)

/-- Counterexample for C2 as frozen: the numeric growth-suffixed field
`hpGrowth` is retained by the converter with its value, while the frozen
claim asserts every numeric field, growth-suffixed ones included, is
absent from the converted block. -/
theorem claim2_counterexample :
    lookupJs (convertParamStat [("hp", Json.num 100), ("hpGrowth", Json.num 10)]) "hpGrowth"
      = some (Json.num 10) := rfl

/-! Lemmas about the tag-stripping scanner. -/

theorem stripAux_no_gt (l : List Char) (h : ∀ x ∈ l, x ≠ '>') :
    ∀ acc, stripAux (some acc) l = '<' :: (acc.reverse ++ l) := by
  induction l with
  | nil =>
    intro acc
    simp [stripAux]
  | cons c rest ih =>
    intro acc
    have hc : (c == '>') = false := by
      simp
      exact h c (List.mem_cons_self _ _)
    simp only [stripAux, hc]
    rw [ih (fun x hx => h x (List.mem_cons_of_mem _ hx)) (c :: acc)]
    simp

theorem stripAux_content (content : List Char) (h : ∀ x ∈ content, x ≠ '>') :
    ∀ acc (l : List Char), stripAux (some acc) (content ++ '>' :: l)
      = stripAux (some (content.reverse ++ acc)) ('>' :: l) := by
  induction content with
  | nil =>
    intro acc l
    simp
  | cons c rest ih =>
    intro acc l
    have hc : (c == '>') = false := by
      simp
      exact h c (List.mem_cons_self _ _)
    rw [List.cons_append]
    conv_lhs => simp only [stripAux, hc]
    rw [ih (fun x hx => h x (List.mem_cons_of_mem _ hx)) (c :: acc) l]
    simp

theorem stripAux_gt (acc l : List Char) :
    stripAux (some acc) ('>' :: l)
      = match acc.reverse with
        | [] => '<' :: '>' :: stripAux none l
        | cc :: ccs =>
          (if isIconMapContent (cc :: ccs) then '<' :: (cc :: ccs) ++ ['>'] else [])
            ++ stripAux none l := rfl

theorem stripRun_cons_ne (c : Char) (l : List Char) (h : c ≠ '<') :
    stripRun (c :: l) = c :: stripRun l := by
  simp [stripRun, stripAux, h]

theorem stripRun_tag_keep (c : Char) (cs l : List Char)
    (hgt : ∀ x ∈ (c :: cs : List Char), x ≠ '>')
    (hic : isIconMapContent (c :: cs) = true) :
    stripRun ('<' :: (c :: cs) ++ '>' :: l) = '<' :: (c :: cs) ++ '>' :: stripRun l := by
  have h1 : stripRun ('<' :: (c :: cs) ++ '>' :: l)
      = stripAux (some []) ((c :: cs) ++ '>' :: l) := rfl
  rw [h1, stripAux_content (c :: cs) hgt [] l, stripAux_gt]
  rw [show (((c :: cs).reverse ++ ([] : List Char))).reverse = c :: cs by simp]
  simp [hic, stripRun]

theorem stripRun_tag_drop (c : Char) (cs l : List Char)
    (hgt : ∀ x ∈ (c :: cs : List Char), x ≠ '>')
    (hic : isIconMapContent (c :: cs) = false) :
    stripRun ('<' :: (c :: cs) ++ '>' :: l) = stripRun l := by
  have h1 : stripRun ('<' :: (c :: cs) ++ '>' :: l)
      = stripAux (some []) ((c :: cs) ++ '>' :: l) := rfl
  rw [h1, stripAux_content (c :: cs) hgt [] l, stripAux_gt]
  rw [show (((c :: cs).reverse ++ ([] : List Char))).reverse = c :: cs by simp]
  simp [hic, stripRun]

/-- Claim C8: wherever a complete tag `<content>` (content non-empty, free
of `>`) occurs, the normalizer's string action deletes it, unless its
content starts with the reserved prefix `IconMap:`, in which case it is
preserved verbatim in place; characters that do not open a tag pass
through; and non-string, non-container leaves pass through `normalizeKeys`
unchanged, while string leaves get exactly the tag-stripper applied. -/
theorem claim8_stripHtmlTags :
    (∀ c cs l, (∀ x ∈ (c :: cs : List Char), x ≠ '>') →
      isIconMapContent (c :: cs) = true →
      stripRun ('<' :: (c :: cs) ++ '>' :: l) = '<' :: (c :: cs) ++ '>' :: stripRun l)
    ∧ (∀ c cs l, (∀ x ∈ (c :: cs : List Char), x ≠ '>') →
      isIconMapContent (c :: cs) = false →
      stripRun ('<' :: (c :: cs) ++ '>' :: l) = stripRun l)
    ∧ (∀ c l, c ≠ '<' → stripRun (c :: l) = c :: stripRun l)
    ∧ (∀ q, normalizeKeys (Json.num q) = Json.num q)
    ∧ (∀ b, normalizeKeys (Json.bool b) = Json.bool b)
    ∧ normalizeKeys Json.null = Json.null
    ∧ (∀ s, normalizeKeys (Json.str s) = Json.str (stripHtmlTags s)) :=
  ⟨stripRun_tag_keep, stripRun_tag_drop, stripRun_cons_ne,
    fun _ => rfl, fun _ => rfl, rfl, fun _ => rfl⟩

/-- Witness for C8 on concrete strings: a kept `IconMap:` tag, a deleted
ordinary tag, and a pass-through character. -/
theorem claim8_witness :
    stripRun ('<' :: "IconMap:1".data ++ '>' :: "x".data)
      = '<' :: "IconMap:1".data ++ '>' :: stripRun "x".data
    ∧ stripRun ('<' :: "b".data ++ '>' :: "x".data) = stripRun "x".data
    ∧ stripRun ('a' :: "yz".data) = 'a' :: stripRun "yz".data := by
  refine ⟨?_, ?_, ?_⟩
  · exact claim8_stripHtmlTags.1 'I' "conMap:1".data "x".data (by decide) (by decide)
  · exact claim8_stripHtmlTags.2.1 'b' [] "x".data (by decide) (by decide)
  · exact claim8_stripHtmlTags.2.2.1 'a' "yz".data (by decide)

/-- Claim C3 (amended): the slugifier maps "Alice: The Good!" to
"alice-thegood" (internal whitespace is deleted before hyphenation, so no
hyphen separates "the" and "good"), maps the all-whitespace input to the
empty string, and the output namer falls back to the raw source key when
the code name is absent (or not a string) or the slug comes out empty.
(The frozen claim expects "alice-the-good"; see the counterexample.) -/
theorem claim3_slugify :
    slugify "Alice: The Good!" = "alice-thegood"
    ∧ slugify "   " = ""
    ∧ (∀ key (entry : Fields),
        getString (coalesceJs (lookupJs entry "CodeName") (lookupJs entry "code")) = none →
        getIndexFileName key entry = key)
    ∧ (∀ key (entry : Fields) c,
        getString (coalesceJs (lookupJs entry "CodeName") (lookupJs entry "code")) = some c →
        slugify c = "" → getIndexFileName key entry = key) := by
  refine ⟨by decide, by decide, ?_, ?_⟩
  · intro key entry h
    unfold getIndexFileName
    rw [h]
  · intro key entry c h hslug
    unfold getIndexFileName
    rw [h]
    by_cases hc : c = ""
    · simp [hc]
    · simp [hc, hslug]

/-- Witness for C3 at concrete index entries: an entry with no code name
and an entry whose code name slugifies to the empty string both fall back
to the raw key. -/
theorem claim3_witness :
    getIndexFileName "k0" [] = "k0"
    ∧ getIndexFileName "k1" [("CodeName", Json.str "   ")] = "k1" := by
  constructor
  · exact claim3_slugify.2.2.1 "k0" [] rfl
  · exact claim3_slugify.2.2.2 "k1" [("CodeName", Json.str "   ")] "   " rfl (by decide)

/-- Counterexample for C3 as frozen: the slugifier deletes whitespace
before replacing non-alphanumeric runs, so "Alice: The Good!" becomes
"alice-thegood", not "alice-the-good". -/
theorem claim3_counterexample :
    slugify "Alice: The Good!" = "alice-thegood"
    ∧ ("alice-thegood" : String) ≠ "alice-the-good" := by
  constructor
  · decide
  · decide

/-- Claim C7: the pre-fetch namer (from the index entry) and the
post-fetch namer (from the fetched detail record) agree whenever the two
records carry the same extracted code-name value, the fallback cases
included: the two functions compute the same name from the same extracted
string-or-absent code name. -/
theorem claim7_naming_agree (key : String) (entry detail : Fields)
    (h : getString (coalesceJs (lookupJs entry "CodeName") (lookupJs entry "code"))
        = getString (lookupJs detail "CodeName")) :
    getIndexFileName key entry = Detail.getFileName key detail := by
  unfold getIndexFileName Detail.getFileName
  rw [h]
  have hslug : ∀ s, Detail.slugify s = slugify s := fun _ => rfl
  cases getString (lookupJs detail "CodeName") with
  | none => rfl
  | some c => simp [hslug]

/-- Witness for C7 at a concrete character record. -/
theorem claim7_witness :
    getIndexFileName "k" [("CodeName", Json.str "Alice")]
      = Detail.getFileName "k" [("CodeName", Json.str "Alice")] :=
  claim7_naming_agree "k" _ _ rfl

/-- Claim C10: key normalization can merge keys: on an object with the two
distinct keys "Foo_Bar" and "FooBar" (both rewriting to "fooBar") the
normalizer returns an object with strictly fewer keys, the later entry in
insertion order having overwritten the earlier one. -/
theorem claim10_keyMerge :
    normalizeKeys (Json.obj [("Foo_Bar", Json.num 1), ("FooBar", Json.num 2)])
      = Json.obj [("fooBar", Json.num 2)]
    ∧ ([("fooBar", Json.num 2)] : Fields).length
        < ([("Foo_Bar", Json.num 1), ("FooBar", Json.num 2)] : Fields).length :=
  ⟨rfl, by decide⟩

/-! Fixed-point lemmas for the tag-stripping scanner. -/

theorem stripRun_fixed (l : List Char) (h : Stripped l) : stripRun l = l := by
  induction h with
  | nil => rfl
  | @chr c l' hc _ ih =>
    rw [stripRun_cons_ne c l' hc, ih]
  | @ltGt l' _ ih =>
    have h1 : stripRun ('<' :: '>' :: l') = '<' :: '>' :: stripRun l' := rfl
    rw [h1, ih]
  | @tag content l' hne hgt hic _ ih =>
    obtain ⟨cc, ccs, rfl⟩ : ∃ cc ccs, content = cc :: ccs := by
      cases content with
      | nil => exact absurd rfl hne
      | cons cc ccs => exact ⟨cc, ccs, rfl⟩
    rw [stripRun_tag_keep cc ccs l' hgt hic, ih]
  | @ltTail l' hgt =>
    have h1 : stripRun ('<' :: l') = stripAux (some []) l' := rfl
    rw [h1, stripAux_no_gt l' hgt []]
    simp

theorem stripAux_stripped (l : List Char) :
    Stripped (stripAux none l)
    ∧ ∀ acc, (∀ x ∈ acc, x ≠ '>') → Stripped (stripAux (some acc) l) := by
  induction l with
  | nil =>
    constructor
    · exact Stripped.nil
    · intro acc hacc
      exact Stripped.ltTail (fun x hx => hacc x (List.mem_reverse.mp hx))
  | cons c rest ih =>
    constructor
    · by_cases hc : c = '<'
      · subst hc
        have h1 : stripAux none ('<' :: rest) = stripAux (some []) rest := rfl
        rw [h1]
        exact ih.2 [] (by simp)
      · rw [show stripAux none (c :: rest) = c :: stripAux none rest from by
          simp [stripAux, hc]]
        exact Stripped.chr hc ih.1
    · intro acc hacc
      by_cases hc : c = '>'
      · subst hc
        rw [stripAux_gt]
        cases hrev : acc.reverse with
        | nil => exact Stripped.ltGt ih.1
        | cons cc ccs =>
          have hgt : ∀ x ∈ (cc :: ccs : List Char), x ≠ '>' := by
            intro x hx
            apply hacc
            rw [← List.mem_reverse, hrev]
            exact hx
          show Stripped
            ((if isIconMapContent (cc :: ccs) then '<' :: (cc :: ccs) ++ ['>'] else [])
              ++ stripAux none rest)
          by_cases hic : isIconMapContent (cc :: ccs) = true
          · rw [if_pos hic]
            have halign : ('<' :: (cc :: ccs) ++ ['>']) ++ stripAux none rest
                = '<' :: (cc :: ccs) ++ '>' :: stripAux none rest := by simp
            rw [halign]
            exact Stripped.tag (by simp) hgt hic ih.1
          · rw [if_neg hic]
            simpa using ih.1
      · rw [show stripAux (some acc) (c :: rest) = stripAux (some (c :: acc)) rest from by
          simp [stripAux, hc]]
        refine ih.2 (c :: acc) ?_
        intro x hx
        rcases List.mem_cons.mp hx with h | h
        · rw [h]; exact hc
        · exact hacc x h

theorem stripRun_idem (l : List Char) : stripRun (stripRun l) = stripRun l :=
  stripRun_fixed _ (stripAux_stripped l).1

theorem stripHtmlTags_idem (s : String) :
    stripHtmlTags (stripHtmlTags s) = stripHtmlTags s :=
  congrArg String.mk (stripRun_idem s.data)

/-! Fixed-point lemmas for the camel-case scanner. -/

theorem lineTerm_not_alnum (c : Char) (h : isLineTermJs c = true) :
    isAsciiAlnum c = false := by
  unfold isLineTermJs at h
  simp at h
  rcases h with ((h | h) | h) | h <;> subst h <;> decide

theorem char_toNat_ofNat (n : Nat) (h : n < 55296) : (Char.ofNat n).toNat = n := by
  unfold Char.ofNat
  rw [dif_pos (Or.inl h)]
  rfl

theorem upChar_alnum (c : Char) (h : isAsciiAlnum c = true) :
    isAsciiAlnum (upChar c) = true := by
  unfold upChar
  by_cases hc : 97 ≤ c.toNat ∧ c.toNat ≤ 122
  · rw [if_pos (by simp [hc.1, hc.2])]
    have hv : (Char.ofNat (c.toNat - 32)).toNat = c.toNat - 32 :=
      char_toNat_ofNat _ (by omega)
    unfold isAsciiAlnum
    rw [hv]
    simp
    omega
  · rw [if_neg (by simpa using hc)]
    exact h

theorem upChar_not_alnum (c : Char) (h : isAsciiAlnum c = false) : upChar c = c := by
  unfold upChar
  rw [if_neg]
  intro hcond
  simp at hcond
  unfold isAsciiAlnum at h
  simp at h
  omega

theorem downChar_alnum (c : Char) (h : isAsciiAlnum c = true) :
    isAsciiAlnum (downChar c) = true := by
  unfold downChar
  by_cases hc : 65 ≤ c.toNat ∧ c.toNat ≤ 90
  · rw [if_pos (by simp [hc.1, hc.2])]
    have hv : (Char.ofNat (c.toNat + 32)).toNat = c.toNat + 32 :=
      char_toNat_ofNat _ (by omega)
    unfold isAsciiAlnum
    rw [hv]
    simp
    omega
  · rw [if_neg (by simpa using hc)]
    exact h

theorem mem_of_mem_dropWhile {p : Char → Bool} {l : List Char} {x : Char}
    (h : x ∈ l.dropWhile p) : x ∈ l := by
  induction l with
  | nil => simp at h
  | cons a as ih =>
    by_cases hp : p a = true
    · rw [List.dropWhile_cons, if_pos hp] at h
      exact List.mem_cons_of_mem _ (ih h)
    · rw [List.dropWhile_cons, if_neg hp] at h
      exact h

theorem true_of_mem_takeWhile {p : Char → Bool} {l : List Char} {x : Char}
    (h : x ∈ l.takeWhile p) : p x = true := by
  induction l with
  | nil => simp at h
  | cons a as ih =>
    by_cases hp : p a = true
    · rw [List.takeWhile_cons, if_pos hp] at h
      rcases List.mem_cons.mp h with h | h
      · rw [h]; exact hp
      · exact ih h
    · rw [List.takeWhile_cons, if_neg hp] at h
      simp at h

theorem camelEnd_all_lineterm (c : Char) (cs : List Char)
    (h : ∀ x ∈ cs, isLineTermJs x = true) : camelEnd c cs = c :: cs := by
  unfold camelEnd
  rw [show cs.reverse.dropWhile isLineTermJs = [] from
    List.dropWhile_eq_nil_iff.mpr (fun x hx => h x (List.mem_reverse.mp hx))]

theorem camelEnd_out (c0 : Char) (cs : List Char) (hc0 : isAsciiAlnum c0 = false)
    (hcs : ∀ x ∈ cs, isAsciiAlnum x = false) : CamelOut (camelEnd c0 cs) := by
  unfold camelEnd
  cases hd : cs.reverse.dropWhile isLineTermJs with
  | nil =>
    apply CamelOut.junk hc0
    intro x hx
    exact List.dropWhile_eq_nil_iff.mp hd x (List.mem_reverse.mpr hx)
  | cons d ds =>
    have hdmem : d ∈ cs := by
      have hmem : d ∈ cs.reverse.dropWhile isLineTermJs := by
        rw [hd]
        exact List.mem_cons_self _ _
      exact List.mem_reverse.mp (mem_of_mem_dropWhile hmem)
    apply CamelOut.junk
    · rw [upChar_not_alnum d (hcs d hdmem)]
      exact hcs d hdmem
    · intro x hx
      rw [List.mem_reverse] at hx
      exact true_of_mem_takeWhile hx

theorem camelAux_all_nonalnum (ls : List Char) (h : ∀ x ∈ ls, isAsciiAlnum x = false) :
    ∀ c0 acc, camelAux (some (c0, acc)) ls = camelEnd c0 (acc.reverse ++ ls) := by
  induction ls with
  | nil =>
    intro c0 acc
    simp [camelAux]
  | cons d ds ih =>
    intro c0 acc
    have hd : isAsciiAlnum d = false := h d (List.mem_cons_self _ _)
    rw [show camelAux (some (c0, acc)) (d :: ds) = camelAux (some (c0, d :: acc)) ds from by
      simp [camelAux, hd]]
    rw [ih (fun x hx => h x (List.mem_cons_of_mem _ hx)) c0 (d :: acc)]
    simp

theorem camelAux_fixed (l : List Char) (h : CamelOut l) : camelAux none l = l := by
  induction h with
  | nil => rfl
  | @alnum c l' hc _ ih =>
    simp [camelAux, hc, ih]
  | @junk c ls hc hls =>
    have hnon : ∀ x ∈ ls, isAsciiAlnum x = false :=
      fun x hx => lineTerm_not_alnum x (hls x hx)
    rw [show camelAux none (c :: ls) = camelAux (some (c, [])) ls from by
      simp [camelAux, hc]]
    rw [camelAux_all_nonalnum ls hnon c []]
    simpa using camelEnd_all_lineterm c ls hls

theorem camelAux_out (l : List Char) :
    CamelOut (camelAux none l)
    ∧ ∀ c0 acc, isAsciiAlnum c0 = false → (∀ x ∈ acc, isAsciiAlnum x = false) →
        CamelOut (camelAux (some (c0, acc)) l) := by
  induction l with
  | nil =>
    constructor
    · exact CamelOut.nil
    · intro c0 acc hc0 hacc
      exact camelEnd_out c0 acc.reverse hc0 (fun x hx => hacc x (List.mem_reverse.mp hx))
  | cons c rest ih =>
    constructor
    · by_cases hc : isAsciiAlnum c = true
      · rw [show camelAux none (c :: rest) = c :: camelAux none rest from by
          simp [camelAux, hc]]
        exact CamelOut.alnum hc ih.1
      · have hc2 : isAsciiAlnum c = false := by simpa using hc
        rw [show camelAux none (c :: rest) = camelAux (some (c, [])) rest from by
          simp [camelAux, hc2]]
        exact ih.2 c [] hc2 (by simp)
    · intro c0 acc hc0 hacc
      by_cases hc : isAsciiAlnum c = true
      · rw [show camelAux (some (c0, acc)) (c :: rest) = upChar c :: camelAux none rest from by
          simp [camelAux, hc]]
        exact CamelOut.alnum (upChar_alnum c hc) ih.1
      · have hc2 : isAsciiAlnum c = false := by simpa using hc
        rw [show camelAux (some (c0, acc)) (c :: rest)
            = camelAux (some (c0, c :: acc)) rest from by simp [camelAux, hc2]]
        refine ih.2 c0 (c :: acc) hc0 ?_
        intro x hx
        rcases List.mem_cons.mp hx with h | h
        · rw [h]; exact hc2
        · exact hacc x h

theorem lowerFirst_camelOut (l : List Char) (h : CamelOut l) :
    CamelOut (lowerFirst l) := by
  cases h with
  | nil => exact CamelOut.nil
  | @alnum c l' hc hs =>
    by_cases hu : 65 ≤ c.toNat ∧ c.toNat ≤ 90
    · rw [show lowerFirst (c :: l') = downChar c :: l' from by
        simp [lowerFirst, hu.1, hu.2]]
      exact CamelOut.alnum (downChar_alnum c hc) hs
    · rw [show lowerFirst (c :: l') = c :: l' from by
        simp [lowerFirst]
        intro h1 h2
        exact absurd ⟨h1, h2⟩ hu]
      exact CamelOut.alnum hc hs
  | @junk c ls hc hls =>
    have hu : ¬ (65 ≤ c.toNat ∧ c.toNat ≤ 90) := by
      intro hcond
      unfold isAsciiAlnum at hc
      simp at hc
      omega
    rw [show lowerFirst (c :: ls) = c :: ls from by
      simp [lowerFirst]
      intro h1 h2
      exact absurd ⟨h1, h2⟩ hu]
    exact CamelOut.junk hc hls

theorem lowerFirst_lowerFirst (l : List Char) :
    lowerFirst (lowerFirst l) = lowerFirst l := by
  cases l with
  | nil => rfl
  | cons c rest =>
    by_cases hu : 65 ≤ c.toNat ∧ c.toNat ≤ 90
    · have hd : (downChar c).toNat = c.toNat + 32 := by
        unfold downChar
        rw [if_pos (by simp [hu.1, hu.2])]
        exact char_toNat_ofNat _ (by omega)
      have hnup : ¬ (65 ≤ (downChar c).toNat ∧ (downChar c).toNat ≤ 90) := by
        intro hcond
        rw [hd] at hcond
        omega
      rw [show lowerFirst (c :: rest) = downChar c :: rest from by
        simp [lowerFirst, hu.1, hu.2]]
      rw [show lowerFirst (downChar c :: rest) = downChar c :: rest from by
        simp [lowerFirst]
        intro h1 h2
        exact absurd ⟨h1, h2⟩ hnup]
    · rw [show lowerFirst (c :: rest) = c :: rest from by
        simp [lowerFirst]
        intro h1 h2
        exact absurd ⟨h1, h2⟩ hu]
      rw [show lowerFirst (c :: rest) = c :: rest from by
        simp [lowerFirst]
        intro h1 h2
        exact absurd ⟨h1, h2⟩ hu]

theorem toLowerCamelCase_idem (s : String) :
    toLowerCamelCase (toLowerCamelCase s) = toLowerCamelCase s := by
  have h1 : CamelOut (lowerFirst (camelAux none s.data)) :=
    lowerFirst_camelOut _ (camelAux_out s.data).1
  refine congrArg String.mk ?_
  show lowerFirst (camelRun (lowerFirst (camelRun s.data))) = lowerFirst (camelRun s.data)
  rw [show camelRun (lowerFirst (camelRun s.data)) = lowerFirst (camelRun s.data) from
    camelAux_fixed _ h1]
  exact lowerFirst_lowerFirst _

/-! Lemmas for rebuilding objects and the normalizer's idempotence. -/

theorem foldl_insertJs_fresh : ∀ (l acc : Fields), (l.map Prod.fst).Nodup →
    (∀ kv ∈ l, ∀ kv2 ∈ acc, kv.1 ≠ kv2.1) →
    l.foldl (fun a kv => insertJs a kv.1 kv.2) acc = acc ++ l := by
  intro l
  induction l with
  | nil =>
    intro acc _ _
    simp
  | cons a l ih =>
    intro acc hnd hfresh
    rw [List.map_cons, List.nodup_cons] at hnd
    obtain ⟨hanotin, hndl⟩ := hnd
    simp only [List.foldl_cons]
    rw [show insertJs acc a.1 a.2 = acc ++ [(a.1, a.2)] from insertJs_of_fresh acc a.1 a.2
      (fun kv2 h2 => Ne.symm (hfresh a (List.mem_cons_self _ _) kv2 h2))]
    have hfr2 : ∀ kv ∈ l, ∀ kv2 ∈ acc ++ [(a.1, a.2)], kv.1 ≠ kv2.1 := by
      intro kv hkv kv2 hkv2
      rcases List.mem_append.mp hkv2 with h2 | h2
      · exact hfresh kv (List.mem_cons_of_mem _ hkv) kv2 h2
      · have hkv2eq : kv2 = (a.1, a.2) := by simpa using h2
        subst hkv2eq
        intro hEq
        exact hanotin (hEq ▸ List.mem_map_of_mem Prod.fst hkv)
    rw [ih (acc ++ [(a.1, a.2)]) hndl hfr2]
    simp

theorem insertAll_of_nodup (l : Fields) (hnd : keysNodup l) : insertAll l = l := by
  unfold insertAll
  rw [foldl_insertJs_fresh l [] hnd (by simp)]
  simp

theorem keysNodup_insertAll (l : Fields) : keysNodup (insertAll l) := by
  suffices h : ∀ (m acc : Fields), keysNodup acc →
      keysNodup (m.foldl (fun a kv => insertJs a kv.1 kv.2) acc) by
    exact h l [] (by unfold keysNodup; simp)
  intro m
  induction m with
  | nil =>
    intro acc h
    simpa using h
  | cons a m ih =>
    intro acc h
    exact ih _ (keysNodup_insertJs _ _ _ h)

theorem mem_insertAll (l : Fields) (kv : String × Json) (h : kv ∈ insertAll l) :
    kv ∈ l := by
  suffices haux : ∀ (m acc : Fields),
      kv ∈ m.foldl (fun a kv2 => insertJs a kv2.1 kv2.2) acc → kv ∈ acc ∨ kv ∈ m by
    rcases haux l [] h with h2 | h2
    · simp at h2
    · exact h2
  intro m
  induction m with
  | nil =>
    intro acc hh
    left
    simpa using hh
  | cons a m ih =>
    intro acc hh
    rcases ih _ hh with h2 | h2
    · rcases mem_insertJs _ _ _ _ h2 with h3 | h3
      · left
        exact h3
      · right
        rw [h3]
        exact List.mem_cons_self _ _
    · right
      exact List.mem_cons_of_mem _ h2

theorem mem_normList (xs : List Json) (y : Json) (h : y ∈ normList xs) :
    ∃ x, x ∈ xs ∧ y = normalizeKeys x := by
  induction xs with
  | nil => simp [normList] at h
  | cons x xs ih =>
    rw [show normList (x :: xs) = normalizeKeys x :: normList xs from rfl] at h
    rcases List.mem_cons.mp h with h2 | h2
    · exact ⟨x, List.mem_cons_self _ _, h2⟩
    · obtain ⟨x0, hmem, hEq⟩ := ih h2
      exact ⟨x0, List.mem_cons_of_mem _ hmem, hEq⟩

theorem mem_normFields (fs : List (String × Json)) (kv : String × Json)
    (h : kv ∈ normFields fs) :
    ∃ kv0, kv0 ∈ fs ∧ kv = (toLowerCamelCase kv0.1, normalizeKeys kv0.2) := by
  induction fs with
  | nil => simp [normFields] at h
  | cons a fs ih =>
    obtain ⟨k, v⟩ := a
    rw [show normFields ((k, v) :: fs)
        = (toLowerCamelCase k, normalizeKeys v) :: normFields fs from rfl] at h
    rcases List.mem_cons.mp h with h2 | h2
    · exact ⟨(k, v), List.mem_cons_self _ _, h2⟩
    · obtain ⟨kv0, hmem, hEq⟩ := ih h2
      exact ⟨kv0, List.mem_cons_of_mem _ hmem, hEq⟩

theorem normFields_fixed (fs : List (String × Json))
    (h : ∀ kv ∈ fs, toLowerCamelCase kv.1 = kv.1 ∧ normalizeKeys kv.2 = kv.2) :
    normFields fs = fs := by
  induction fs with
  | nil => rfl
  | cons a fs ih =>
    obtain ⟨k, v⟩ := a
    have ha := h (k, v) (List.mem_cons_self _ _)
    rw [show normFields ((k, v) :: fs)
        = (toLowerCamelCase k, normalizeKeys v) :: normFields fs from rfl]
    rw [ih (fun kv hkv => h kv (List.mem_cons_of_mem _ hkv))]
    rw [show toLowerCamelCase k = k from ha.1, show normalizeKeys v = v from ha.2]

theorem normList_fixed (xs : List Json)
    (h : ∀ x ∈ xs, normalizeKeys x = x) : normList xs = xs := by
  induction xs with
  | nil => rfl
  | cons x xs ih =>
    rw [show normList (x :: xs) = normalizeKeys x :: normList xs from rfl]
    rw [h x (List.mem_cons_self _ _), ih (fun y hy => h y (List.mem_cons_of_mem _ hy))]

theorem Json.strongInd (P : Json → Prop)
    (hnull : P Json.null) (hbool : ∀ b, P (Json.bool b)) (hnum : ∀ q, P (Json.num q))
    (hstr : ∀ s, P (Json.str s))
    (harr : ∀ xs, (∀ x ∈ xs, P x) → P (Json.arr xs))
    (hobj : ∀ fs, (∀ kv ∈ fs, P kv.2) → P (Json.obj fs)) :
    ∀ v, P v
  | Json.null => hnull
  | Json.bool b => hbool b
  | Json.num q => hnum q
  | Json.str s => hstr s
  | Json.arr xs => harr xs (fun x hx =>
      Json.strongInd P hnull hbool hnum hstr harr hobj x)
  | Json.obj fs => hobj fs (fun kv hkv =>
      Json.strongInd P hnull hbool hnum hstr harr hobj kv.2)
termination_by v => sizeOf v
decreasing_by
  · have h := List.sizeOf_lt_of_mem hx
    simp
    omega
  · have h := List.sizeOf_lt_of_mem hkv
    have h2 : sizeOf kv.2 < sizeOf kv := by
      obtain ⟨a, b⟩ := kv
      simp
    simp
    omega

/-- Claim C5: the key normalizer is idempotent on every JSON value:
applying `normalizeKeys` twice yields the same result as applying it
once. -/
theorem claim5_normalizeKeys_idem :
    ∀ v, normalizeKeys (normalizeKeys v) = normalizeKeys v := by
  intro v
  induction v using Json.strongInd with
  | hnull => rfl
  | hbool b => rfl
  | hnum q => rfl
  | hstr s =>
    show Json.str (stripHtmlTags (stripHtmlTags s)) = Json.str (stripHtmlTags s)
    rw [stripHtmlTags_idem]
  | harr xs ih =>
    show Json.arr (normList (normList xs)) = Json.arr (normList xs)
    congr 1
    apply normList_fixed
    intro y hy
    obtain ⟨x, hx, rfl⟩ := mem_normList xs y hy
    exact ih x hx
  | hobj fs ih =>
    show Json.obj (insertAll (normFields (insertAll (normFields fs))))
        = Json.obj (insertAll (normFields fs))
    congr 1
    have hnd : keysNodup (insertAll (normFields fs)) := keysNodup_insertAll _
    have hfix : ∀ kv ∈ insertAll (normFields fs),
        toLowerCamelCase kv.1 = kv.1 ∧ normalizeKeys kv.2 = kv.2 := by
      intro kv hkv
      obtain ⟨kv0, hmem0, hEq⟩ := mem_normFields _ _ (mem_insertAll _ _ hkv)
      constructor
      · rw [hEq]
        exact toLowerCamelCase_idem kv0.1
      · rw [hEq]
        exact ih kv0 hmem0
    rw [normFields_fixed _ hfix, insertAll_of_nodup _ hnd]
